import Mathlib

/-!
# The signal registry of `fx` (`signal.go`)

A shallow embedding of `signalReceivers` and its three methods `done`,
`broadcastDone` and `broadcast`, together with the part of the Go runtime
they touch: buffered channels of `os.Signal` values.

* A channel is a reference (`ChanRef`) into the store of allocated channels
  (`State.chans`); `make` allocates the next free reference.
* A blocking send `ch <- v` is `send`, which has no result when the sender
  would block; the `select { case ch <- v: ... default: ... }` of
  `broadcastDone` is `trySend`.
* The two `sync.RWMutex` fields only serialise the calls; a call is modelled
  as a function from the state before it to the state after it.  `broadcast`
  is the composition of its two lock-delimited steps, `setLast` and
  `broadcastDone`.  The lock statements themselves are the events of
  `lockProg`, run by calls in progress under the blocking rules of
  `sync.RWMutex` (`enabled`).
* `fmt.Sprintf` is modelled for the one verb the file uses, `%v`, on values
  with a `String` method and on integers.
* `signal.Notify` registers the channel with the runtime and sends nothing at
  the time of the call; deliveries by the runtime and receives by consumers
  are not calls of this file and appear here only through the arbitrary
  channel contents of an arbitrary state.
* The counters are Go `int`s bounded by the length of a slice, so they are
  natural numbers here.
-/

namespace Fx

/-- An `os.Signal` value, identified by its signal number. -/
abbrev OSSignal := Nat

/-- The wrapper `type Signal struct { OS os.Signal }`. -/
structure Signal where
  OS : OSSignal
deriving DecidableEq, Repr

/-- The state of a `chan os.Signal`: the capacity given to `make` and the
values waiting in its buffer, oldest first. -/
structure Chan where
  cap : Nat
  buf : List OSSignal
deriving DecidableEq, Repr

/-- A channel value: a reference into the store of allocated channels. -/
abbrev ChanRef := Nat

/-- The data fields of `type signalReceivers struct` (`last`, `dones`). -/
structure signalReceivers where
  last : Option Signal
  dones : List ChanRef
deriving DecidableEq, Repr

/-- The memory the methods work on: the allocated channels and the receiver. -/
structure State where
  chans : List Chan
  recv : signalReceivers
deriving DecidableEq, Repr

/-- The zero value `signalReceivers{}` with no channel allocated yet. -/
def State.init : State :=
  { chans := [], recv := { last := none, dones := [] } }

/-- The builtin `make(chan os.Signal, cap)`: a new empty channel. -/
def makeChan (chans : List Chan) (cap : Nat) : List Chan × ChanRef :=
  (chans ++ [{ cap := cap, buf := [] }], chans.length)

/-- Whether a send can proceed at once: there is room in the buffer. -/
def Chan.canSend (c : Chan) : Bool :=
  decide (c.buf.length < c.cap)

/-- The channel after a value has been put in its buffer. -/
def Chan.push (c : Chan) (v : OSSignal) : Chan :=
  { c with buf := c.buf ++ [v] }

/-- The statement `ch <- v`.  There is no result when the sender would block:
the buffer is full, or the reference is to no channel.  On a channel of
capacity at least 1 this does not depend on who is receiving: a receiver can
only be waiting while the buffer is empty, and then there is room. -/
def send (chans : List Chan) (ch : ChanRef) (v : OSSignal) : Option (List Chan) :=
  match chans[ch]? with
  | some c => if c.canSend then some (chans.set ch (c.push v)) else none
  | none => none

/-- The statement `select { case ch <- v: default: }`: the send when it can
proceed (`true`), the `default` branch otherwise (`false`). -/
def trySend (chans : List Chan) (ch : ChanRef) (v : OSSignal) : List Chan × Bool :=
  match send chans ch v with
  | some chans1 => (chans1, true)
  | none => (chans, false)

/-- The method `signalReceivers.done`: the state after the call and the
channel it returns. -/
def done (st : State) : Option (State × ChanRef) := do
  let (chans, ch) := makeChan st.chans 1
  let chans ← match st.recv.last with
    | some last => send chans ch last.OS
    | none => pure chans
  pure ({ chans := chans, recv := { st.recv with dones := st.recv.dones ++ [ch] } }, ch)

/-- The loop `for _, reader := range recv.dones` of `broadcastDone`, with the
running value of `unsent`. -/
def broadcastDoneLoop (v : OSSignal) : List ChanRef → List Chan → Nat → List Chan × Nat
  | [], chans, unsent => (chans, unsent)
  | reader :: rest, chans, unsent =>
    match trySend chans reader v with
    | (chans1, true) => broadcastDoneLoop v rest chans1 unsent
    | (chans1, false) => broadcastDoneLoop v rest chans1 (unsent + 1)

/-- The method `signalReceivers.broadcastDone`: the state after the call and
the pair `(receivers, unsent)`. -/
def broadcastDone (st : State) (signal : Signal) : State × Nat × Nat :=
  let receivers := st.recv.dones.length
  let (chans, unsent) := broadcastDoneLoop signal.OS st.recv.dones st.chans 0
  ({ st with chans := chans }, receivers, unsent)

/-- The struct `type unsentSignalError struct`. -/
structure unsentSignalError where
  Signal : Fx.Signal
  Unsent : Nat
  Channels : Nat
deriving DecidableEq, Repr

/-- The first critical section of `broadcast`: `recv.last = &signal`. -/
def setLast (st : State) (signal : Signal) : State :=
  { st with recv := { st.recv with last := some signal } }

/-- The method `signalReceivers.broadcast`: the state after the call and the
returned `err` (`none` is `nil`). -/
def broadcast (st : State) (signal : Signal) : State × Option unsentSignalError :=
  let st1 := setLast st signal
  let (st2, channels, unsent) := broadcastDone st1 signal
  let err : Option unsentSignalError :=
    if unsent ≠ 0 then
      some { Signal := signal, Channels := channels, Unsent := unsent }
    else none
  (st2, err)

/-! ## Sequences of calls -/

/-- A call of one of the two entry points of the registry. -/
inductive Op where
  | done : Op
  | broadcast : Signal → Op
deriving DecidableEq, Repr

/-- The state after one call. -/
def step (st : State) : Op → Option State
  | Op.done => (done st).map Prod.fst
  | Op.broadcast signal => some (broadcast st signal).1

/-- The state after a sequence of calls, made one after the other. -/
def exec : State → List Op → Option State
  | st, [] => some st
  | st, op :: ops => (step st op).bind (fun st1 => exec st1 ops)

/-- The signal of the most recent `broadcast` call of a sequence, if any. -/
def lastBroadcast : List Op → Option Signal
  | [] => none
  | op :: ops =>
    match lastBroadcast ops with
    | some s => some s
    | none =>
      match op with
      | Op.broadcast s => some s
      | Op.done => none

/-- `n` calls of `done` in a row: the state after them and the channels they
returned, in the order of the calls. -/
def registerN : Nat → State → Option (State × List ChanRef)
  | 0, st => some (st, [])
  | n + 1, st => do
    let (st1, ch) ← done st
    let (st2, chs) ← registerN n st1
    pure (st2, ch :: chs)

/-! ## Predicates on states -/

/-- The content of the buffer of a channel, when the reference is allocated. -/
def content (st : State) (ch : ChanRef) : Option (List OSSignal) :=
  st.chans[ch]?.map Chan.buf

/-- The single buffer slot of a listener channel holds a value. -/
def slotOccupied (chans : List Chan) (ch : ChanRef) : Bool :=
  match chans[ch]? with
  | some c => !c.buf.isEmpty
  | none => false

/-- A listener as `done` makes it: an allocated channel of capacity 1 whose
buffer holds at most one value. -/
def listenerOK (chans : List Chan) (ch : ChanRef) : Bool :=
  match chans[ch]? with
  | some c => decide (c.cap = 1 ∧ c.buf.length ≤ c.cap)
  | none => false

/-- Well-formed states: the listeners are distinct channels, each as `done`
makes it.  Every state the calls can reach from `State.init` is one. -/
def WF (st : State) : Prop :=
  st.recv.dones.Nodup ∧ ∀ ch ∈ st.recv.dones, listenerOK st.chans ch = true

instance (st : State) : Decidable (WF st) := by
  unfold WF; infer_instance

/-- The signal number of `SIGINT`. -/
def SIGINT : Signal := { OS := 2 }

/-- The signal number of `SIGTERM`. -/
def SIGTERM : Signal := { OS := 15 }

/-- A send to the channel can proceed at once. -/
def ready (chans : List Chan) (ch : ChanRef) : Bool :=
  match chans[ch]? with
  | some c => c.canSend
  | none => false

/-- What one visit of the fan-out does to a channel. -/
def Chan.deliver (v : OSSignal) (c : Chan) : Chan :=
  if c.canSend then c.push v else c

/-- The channel `done` hands out: capacity 1, holding the cached signal if
there is one. -/
def freshChan (last : Option Signal) : Chan :=
  { cap := 1, buf := match last with
                     | some s => [s.OS]
                     | none => [] }

/-- A state with two listeners, the first holding an undrained `SIGINT`. -/
def stHalf : State :=
  { chans := [{ cap := 1, buf := [2] }, { cap := 1, buf := [] }],
    recv := { last := some SIGINT, dones := [0, 1] } }

/-- A state with one listener whose slot is free and no cached signal. -/
def stOne : State :=
  { chans := [{ cap := 1, buf := [] }], recv := { last := none, dones := [0] } }

/-- The channel `ch` has taken the value `v` between the states `st` and
`st1`: its buffer is the one before with `v` put at its end. -/
def received (st st1 : State) (v : OSSignal) (ch : ChanRef) : Bool :=
  decide (content st1 ch = (content st ch).map (fun b => b ++ [v]))

/-- Where the call of `done`, atomic under its two locks, falls among the
two critical sections of one call of `broadcast`: before `recv.last` is set,
between that and the fan-out, or after the fan-out. -/
inductive Schedule where
  | doneFirst : Schedule
  | doneBetween : Schedule
  | doneLast : Schedule
deriving DecidableEq, Repr

/-- One call of `done` run with one call of `broadcast signal` under a
schedule: the state after both and the channel `done` returned. -/
def interleave (st : State) (signal : Signal) : Schedule → Option (State × ChanRef)
  | Schedule.doneFirst => do
    let (st1, ch) ← done st
    pure ((broadcastDone (setLast st1 signal) signal).1, ch)
  | Schedule.doneBetween => do
    let (st1, ch) ← done (setLast st signal)
    pure ((broadcastDone st1 signal).1, ch)
  | Schedule.doneLast =>
    done (broadcastDone (setLast st signal) signal).1

/-! ## The locks -/

/-- The two `sync.RWMutex` fields of `signalReceivers`. -/
inductive LockId where
  | lastLock : LockId
  | doneLock : LockId
deriving DecidableEq, Repr

/-- How an `RWMutex` is held: `RLock` (shared) or `Lock` (exclusive). -/
inductive Mode where
  | shared : Mode
  | exclusive : Mode
deriving DecidableEq, Repr

/-- What a call does next, as far as the locks are concerned. -/
inductive Event where
  | acquire : LockId → Mode → Event
  | release : LockId → Mode → Event
  | work : Event
deriving DecidableEq, Repr

/-- The two entry points that take locks. -/
inductive Method where
  | done : Method
  | broadcast : Method
deriving DecidableEq, Repr

/-- The lock statements of a method in the order they run. -/
def lockProg : Method → List Event
  | Method.done =>
    [Event.acquire LockId.doneLock Mode.exclusive,
     Event.acquire LockId.lastLock Mode.shared,
     Event.work,
     Event.release LockId.lastLock Mode.shared,
     Event.release LockId.doneLock Mode.exclusive]
  | Method.broadcast =>
    [Event.acquire LockId.lastLock Mode.exclusive,
     Event.work,
     Event.release LockId.lastLock Mode.exclusive,
     Event.acquire LockId.doneLock Mode.shared,
     Event.work,
     Event.release LockId.doneLock Mode.shared]

/-- The locks held after a run of events, most recent first. -/
def heldAfter : List Event → List (LockId × Mode) → List (LockId × Mode)
  | [], held => held
  | Event.acquire l m :: rest, held => heldAfter rest ((l, m) :: held)
  | Event.release l m :: rest, held => heldAfter rest (held.erase (l, m))
  | Event.work :: rest, held => heldAfter rest held

/-- The acquisitions of a run of events, in order. -/
def acquisitions : List Event → List (LockId × Mode)
  | [] => []
  | Event.acquire l m :: rest => (l, m) :: acquisitions rest
  | _ :: rest => acquisitions rest

/-- A call in progress: the method and the number of its events already run. -/
structure Call where
  method : Method
  pc : Nat
deriving DecidableEq, Repr

/-- The event the call runs next; none when the call has returned. -/
def Call.next (c : Call) : Option Event :=
  (lockProg c.method)[c.pc]?

/-- The locks the call holds. -/
def Call.held (c : Call) : List (LockId × Mode) :=
  heldAfter ((lockProg c.method).take c.pc) []

/-- The call holds the lock, in either mode. -/
def Call.holds (c : Call) (l : LockId) : Bool :=
  c.held.any (fun h => h.1 == l)

/-- Whether an event can run given the other calls in progress. -/
def enabled (others : List Call) : Event → Bool
  | Event.acquire l Mode.exclusive => others.all (fun o => !o.holds l)
  | Event.acquire l Mode.shared =>
    others.all (fun o => !decide ((l, Mode.exclusive) ∈ o.held) &&
      !decide (o.next = some (Event.acquire l Mode.exclusive)))
  | Event.release _ _ => true
  | Event.work => true

/-- The call `c`, standing between `front` and `back`, can run its next event. -/
def canStep (front : List Call) (c : Call) (back : List Call) : Bool :=
  match c.next with
  | some e => enabled (front ++ back) e
  | none => false

/-- The call waits for the lock: its next event is to acquire it. -/
def Call.waitsFor (c : Call) (l : LockId) : Bool :=
  match c.next with
  | some (Event.acquire l1 _) => l1 == l
  | _ => false

/-! ## Formatting -/

/-- An operand of `fmt.Sprintf`: a value with a `String` method, given by
what the method returns, or an `int`. -/
inductive FmtArg where
  | stringer : String → FmtArg
  | int : Nat → FmtArg

/-- The verb `%v` on an operand: the result of the `String` method, or the
decimal digits of the integer. -/
def formatV : FmtArg → List Char
  | FmtArg.stringer s => s.data
  | FmtArg.int n => (Nat.repr n).data

/-- The scan of the format of `fmt.Sprintf`, for formats whose only verb is
`%v`: each `%v` takes the next operand, every other character is copied. -/
def sprintfAux : List Char → List FmtArg → List Char
  | [], _ => []
  | '%' :: 'v' :: rest, a :: args => formatV a ++ sprintfAux rest args
  | '%' :: 'v' :: rest, [] => "%!v(MISSING)".data ++ sprintfAux rest []
  | c :: rest, args => c :: sprintfAux rest args

/-- The function `fmt.Sprintf` on such formats. -/
def Sprintf (format : String) (args : List FmtArg) : String :=
  String.mk (sprintfAux format.data args)

/-- The method `Signal.String`.  The `os.Signal` value is printed by its own
`String` method, which the platform supplies: `render`. -/
def Signal.String (render : OSSignal → String) (sig : Signal) : String :=
  Sprintf "%v" [FmtArg.stringer (render sig.OS)]

/-- The method `unsentSignalError.Error`. -/
def unsentSignalError.Error (render : OSSignal → String) (err : unsentSignalError) : String :=
  Sprintf "send %v signal: %v/%v channels are blocked"
    [FmtArg.stringer (err.Signal.String render), FmtArg.int err.Unsent,
     FmtArg.int err.Channels]

/-- The names Go prints for `SIGINT` and `SIGTERM`. -/
def goSignalName (v : OSSignal) : String :=
  if v = 2 then "interrupt" else if v = 15 then "terminated" else "signal " ++ Nat.repr v

/-! ## The channel operations -/

theorem send_of_ready {chans : List Chan} {ch : ChanRef} {c : Chan} (v : OSSignal)
    (hc : chans[ch]? = some c) (hr : c.canSend = true) :
    send chans ch v = some (chans.set ch (c.push v)) := by
  simp [send, hc, hr]

theorem send_of_not_ready {chans : List Chan} {ch : ChanRef} (v : OSSignal)
    (hr : ready chans ch = false) : send chans ch v = none := by
  unfold ready at hr
  unfold send
  cases hc : chans[ch]? with
  | none => rfl
  | some c => simp [hc] at hr; simp [hr]

theorem trySend_snd (chans : List Chan) (ch : ChanRef) (v : OSSignal) :
    (trySend chans ch v).2 = ready chans ch := by
  unfold trySend send ready
  cases hc : chans[ch]? with
  | none => rfl
  | some c => cases hr : c.canSend <;> simp [hr]

theorem trySend_fst_of_not_ready {chans : List Chan} {ch : ChanRef} (v : OSSignal)
    (hr : ready chans ch = false) : (trySend chans ch v).1 = chans := by
  simp [trySend, send_of_not_ready v hr]

theorem trySend_getElem? (chans : List Chan) (ch : ChanRef) (v : OSSignal) (i : Nat) :
    (trySend chans ch v).1[i]? =
      if i = ch then chans[i]?.map (Chan.deliver v) else chans[i]? := by
  unfold trySend send
  cases hc : chans[ch]? with
  | none =>
    by_cases hi : i = ch
    · subst hi; simp [hc]
    · simp [hi]
  | some c =>
    have hlt : ch < chans.length := (List.getElem?_eq_some.mp hc).1
    cases hr : c.canSend with
    | false =>
      by_cases hi : i = ch
      · subst hi; simp [hc, Chan.deliver, hr]
      · simp [hi, hr]
    | true =>
      by_cases hi : i = ch
      · subst hi; simp [hc, Chan.deliver, hr, List.getElem?_set, hlt]
      · have hne : ch ≠ i := fun h => hi h.symm
        simp [hi, hr, List.getElem?_set_ne hne]

theorem trySend_ready_of_ne (chans : List Chan) {ch i : ChanRef} (v : OSSignal)
    (hne : i ≠ ch) : ready (trySend chans ch v).1 i = ready chans i := by
  unfold ready
  rw [trySend_getElem?, if_neg hne]

/-! ## The fan-out loop -/

theorem broadcastDoneLoop_cons (v : OSSignal) (reader : ChanRef) (rest : List ChanRef)
    (chans : List Chan) (unsent : Nat) :
    broadcastDoneLoop v (reader :: rest) chans unsent =
      broadcastDoneLoop v rest (trySend chans reader v).1
        (if ready chans reader then unsent else unsent + 1) := by
  rw [← trySend_snd chans reader v]
  rw [broadcastDoneLoop]
  rcases h : trySend chans reader v with ⟨chans1, b⟩
  cases b <;> simp

/-- A channel that cannot take a send is left as it is by the whole loop,
wherever and however often it stands in the list. -/
theorem broadcastDoneLoop_not_ready (v : OSSignal) (l : List ChanRef) :
    ∀ (chans : List Chan) (unsent : Nat) (i : ChanRef), ready chans i = false →
      (broadcastDoneLoop v l chans unsent).1[i]? = chans[i]? := by
  induction l with
  | nil => intro chans unsent i _; rfl
  | cons reader rest ih =>
    intro chans unsent i hi
    rw [broadcastDoneLoop_cons]
    by_cases hir : i = reader
    · subst hir
      have h1 : (trySend chans i v).1 = chans := trySend_fst_of_not_ready v hi
      rw [h1]
      exact ih chans _ i hi
    · have h2 : ready (trySend chans reader v).1 i = false := by
        rw [trySend_ready_of_ne chans v hir]; exact hi
      rw [ih _ _ i h2, trySend_getElem?, if_neg hir]

/-- The channels after the loop over a list of distinct listeners: each
listener has been visited once, every other channel is untouched. -/
theorem broadcastDoneLoop_getElem? (v : OSSignal) (l : List ChanRef) :
    ∀ (chans : List Chan) (unsent : Nat), l.Nodup → ∀ i : Nat,
      (broadcastDoneLoop v l chans unsent).1[i]? =
        if i ∈ l then chans[i]?.map (Chan.deliver v) else chans[i]? := by
  induction l with
  | nil => intro chans unsent _ i; simp [broadcastDoneLoop]
  | cons reader rest ih =>
    intro chans unsent hnd i
    obtain ⟨hnot, hrest⟩ := List.nodup_cons.mp hnd
    rw [broadcastDoneLoop_cons, ih _ _ hrest i, trySend_getElem?]
    by_cases hir : i = reader
    · subst hir; simp [hnot]
    · simp [hir]

/-- The value of `unsent` after the loop over a list of distinct listeners:
one more for each listener that could not take the send. -/
theorem broadcastDoneLoop_unsent (v : OSSignal) (l : List ChanRef) :
    ∀ (chans : List Chan) (unsent : Nat), l.Nodup →
      (broadcastDoneLoop v l chans unsent).2 =
        unsent + l.countP (fun ch => !ready chans ch) := by
  induction l with
  | nil => intro chans unsent _; simp [broadcastDoneLoop]
  | cons reader rest ih =>
    intro chans unsent hnd
    obtain ⟨hnot, hrest⟩ := List.nodup_cons.mp hnd
    rw [broadcastDoneLoop_cons, ih _ _ hrest, List.countP_cons]
    have hcongr : rest.countP (fun ch => !ready (trySend chans reader v).1 ch) =
        rest.countP (fun ch => !ready chans ch) := by
      apply List.countP_congr
      intro x hx
      have hne : x ≠ reader := fun h => hnot (h ▸ hx)
      rw [trySend_ready_of_ne chans v hne]
    rw [hcongr]
    cases hr : ready chans reader
    · simp; omega
    · simp

/-! ## The three methods -/

/-- The method `done` always returns, and this is what it returns. -/
theorem done_eq (st : State) :
    done st = some ({ chans := st.chans ++ [freshChan st.recv.last],
                      recv := { last := st.recv.last,
                                dones := st.recv.dones ++ [st.chans.length] } },
                    st.chans.length) := by
  have hnew : (st.chans ++ [({ cap := 1, buf := [] } : Chan)])[st.chans.length]? =
      some { cap := 1, buf := [] } := List.getElem?_concat_length _ _
  cases hl : st.recv.last with
  | none => simp [done, makeChan, hl, freshChan]
  | some s =>
    have hs := send_of_ready s.OS hnew (by decide)
    simp [done, makeChan, hl, freshChan, hs, Chan.push]

theorem broadcast_recv (st : State) (sig : Signal) :
    (broadcast st sig).1.recv = { last := some sig, dones := st.recv.dones } := rfl

theorem broadcast_chans (st : State) (sig : Signal) :
    (broadcast st sig).1.chans =
      (broadcastDoneLoop sig.OS st.recv.dones st.chans 0).1 := rfl

theorem broadcast_err (st : State) (sig : Signal) :
    (broadcast st sig).2 =
      if (broadcastDoneLoop sig.OS st.recv.dones st.chans 0).2 ≠ 0 then
        some { Signal := sig,
               Unsent := (broadcastDoneLoop sig.OS st.recv.dones st.chans 0).2,
               Channels := st.recv.dones.length }
      else none := rfl

theorem broadcastDone_unsent (st : State) (sig : Signal) :
    (broadcastDone (setLast st sig) sig).2.2 =
      (broadcastDoneLoop sig.OS st.recv.dones st.chans 0).2 := rfl

/-! ## Well-formed states -/

theorem listenerOK_iff {chans : List Chan} {ch : ChanRef} :
    listenerOK chans ch = true ↔
      ∃ c, chans[ch]? = some c ∧ c.cap = 1 ∧ c.buf.length ≤ 1 := by
  unfold listenerOK
  cases hc : chans[ch]? with
  | none => simp
  | some c =>
    simp only [decide_eq_true_eq, Option.some.injEq, exists_eq_left']
    constructor
    · rintro ⟨h1, h2⟩; exact ⟨h1, h1 ▸ h2⟩
    · rintro ⟨h1, h2⟩; exact ⟨h1, h1.symm ▸ h2⟩

/-- On a listener as `done` makes it, a send can proceed exactly when the
single slot is free. -/
theorem ready_eq_not_slotOccupied {chans : List Chan} {ch : ChanRef}
    (h : listenerOK chans ch = true) : ready chans ch = !slotOccupied chans ch := by
  obtain ⟨c, hc, hcap, hlen⟩ := listenerOK_iff.mp h
  unfold ready slotOccupied
  simp only [hc, Chan.canSend, hcap]
  cases hb : c.buf with
  | nil => simp
  | cons a t => simp

theorem countP_not_ready {chans : List Chan} {l : List ChanRef}
    (h : ∀ ch ∈ l, listenerOK chans ch = true) :
    l.countP (fun ch => !ready chans ch) = l.countP (slotOccupied chans) := by
  apply List.countP_congr
  intro x hx
  rw [ready_eq_not_slotOccupied (h x hx)]
  simp

theorem listenerOK_deliver {chans chans1 : List Chan} {ch : ChanRef} (v : OSSignal)
    (h : listenerOK chans ch = true)
    (h1 : chans1[ch]? = chans[ch]?.map (Chan.deliver v)) :
    listenerOK chans1 ch = true := by
  obtain ⟨c, hc, hcap, hlen⟩ := listenerOK_iff.mp h
  rw [hc] at h1
  apply listenerOK_iff.mpr
  refine ⟨Chan.deliver v c, h1, ?_, ?_⟩
  · unfold Chan.deliver Chan.push; split <;> simp [hcap]
  · unfold Chan.deliver Chan.push
    split
    · rename_i hcs
      simp only [Chan.canSend, decide_eq_true_eq] at hcs
      simp only [List.length_append, List.length_singleton]
      omega
    · exact hlen

theorem WF_init : WF State.init := by decide

theorem WF_broadcast {st : State} (sig : Signal) (h : WF st) : WF (broadcast st sig).1 := by
  obtain ⟨hnd, hok⟩ := h
  refine ⟨hnd, ?_⟩
  intro ch hch
  have hch1 : ch ∈ st.recv.dones := hch
  apply listenerOK_deliver sig.OS (hok ch hch1)
  rw [broadcast_chans, broadcastDoneLoop_getElem? _ _ _ _ hnd, if_pos hch1]

theorem WF_done {st st1 : State} {c : ChanRef} (h : WF st) (hd : done st = some (st1, c)) :
    WF st1 := by
  obtain ⟨hnd, hok⟩ := h
  rw [done_eq] at hd
  simp only [Option.some.injEq, Prod.mk.injEq] at hd
  obtain ⟨rfl, rfl⟩ := hd
  have hlt : ∀ ch ∈ st.recv.dones, ch < st.chans.length := by
    intro ch hch
    obtain ⟨c, hc, _⟩ := listenerOK_iff.mp (hok ch hch)
    exact (List.getElem?_eq_some.mp hc).1
  constructor
  · show (st.recv.dones ++ [st.chans.length]).Nodup
    rw [List.nodup_append]
    refine ⟨hnd, List.nodup_singleton _, ?_⟩
    intro a ha hb
    have hlta := hlt a ha
    have hb1 : a = st.chans.length := List.mem_singleton.mp hb
    exact absurd hb1 (Nat.ne_of_lt hlta)
  · intro ch hch
    have hch1 : ch ∈ st.recv.dones ++ [st.chans.length] := hch
    rcases List.mem_append.mp hch1 with hin | hin
    · obtain ⟨c, hc, hcap, hlen⟩ := listenerOK_iff.mp (hok ch hin)
      apply listenerOK_iff.mpr
      refine ⟨c, ?_, hcap, hlen⟩
      show (st.chans ++ [freshChan st.recv.last])[ch]? = some c
      rw [List.getElem?_append_left (hlt ch hin)]; exact hc
    · simp at hin
      subst hin
      apply listenerOK_iff.mpr
      refine ⟨freshChan st.recv.last, List.getElem?_concat_length _ _, rfl, ?_⟩
      unfold freshChan
      cases st.recv.last <;> simp

/-! ## One call of `broadcast` -/

theorem broadcast_unsent_eq {st : State} (sig : Signal) (hwf : WF st) :
    (broadcastDoneLoop sig.OS st.recv.dones st.chans 0).2 =
      st.recv.dones.countP (slotOccupied st.chans) := by
  rw [broadcastDoneLoop_unsent _ _ _ _ hwf.1, countP_not_ready hwf.2, Nat.zero_add]

theorem broadcast_getElem? {st : State} (sig : Signal) (hwf : WF st) (i : Nat) :
    (broadcast st sig).1.chans[i]? =
      if i ∈ st.recv.dones then st.chans[i]?.map (Chan.deliver sig.OS) else st.chans[i]? := by
  rw [broadcast_chans, broadcastDoneLoop_getElem? _ _ _ _ hwf.1]

theorem broadcast_slotOccupied_unchanged (st : State) (sig : Signal) (ch : ChanRef)
    (hocc : slotOccupied st.chans ch = true) (hok : listenerOK st.chans ch = true) :
    (broadcast st sig).1.chans[ch]? = st.chans[ch]? := by
  rw [broadcast_chans]
  apply broadcastDoneLoop_not_ready
  rw [ready_eq_not_slotOccupied hok, hocc]; rfl

/-- A broadcast to listeners whose slots are all free: no error, and every
listener holds the signal. -/
theorem broadcast_all_free {st : State} (sig : Signal) (hwf : WF st)
    (hfree : ∀ ch ∈ st.recv.dones, slotOccupied st.chans ch = false) :
    (broadcast st sig).2 = none ∧
      ∀ ch ∈ st.recv.dones, content (broadcast st sig).1 ch = some [sig.OS] := by
  constructor
  · rw [broadcast_err, broadcast_unsent_eq sig hwf]
    have h0 : st.recv.dones.countP (slotOccupied st.chans) = 0 := by
      rw [List.countP_eq_zero]
      intro a ha; rw [hfree a ha]; simp
    simp [h0]
  · intro ch hch
    obtain ⟨c, hc, hcap, hlen⟩ := listenerOK_iff.mp (hwf.2 ch hch)
    have hbuf : c.buf = [] := by
      have h := hfree ch hch
      unfold slotOccupied at h
      rw [hc] at h
      simpa using h
    unfold content
    rw [broadcast_getElem? sig hwf, if_pos hch, hc]
    simp [Chan.deliver, Chan.canSend, Chan.push, hbuf, hcap]

/-- A broadcast to listeners whose slots are all occupied: every listener is
counted as unsent and keeps what it holds. -/
theorem broadcast_all_occupied {st : State} (sig : Signal) (hwf : WF st)
    (hocc : ∀ ch ∈ st.recv.dones, slotOccupied st.chans ch = true)
    (hne : st.recv.dones ≠ []) :
    (broadcast st sig).2 =
        some { Signal := sig, Unsent := st.recv.dones.length,
               Channels := st.recv.dones.length } ∧
      ∀ ch ∈ st.recv.dones, content (broadcast st sig).1 ch = content st ch := by
  constructor
  · rw [broadcast_err, broadcast_unsent_eq sig hwf]
    have hall : st.recv.dones.countP (slotOccupied st.chans) = st.recv.dones.length :=
      List.countP_eq_length.mpr hocc
    have hpos : st.recv.dones.length ≠ 0 := fun h => hne (List.length_eq_zero.mp h)
    rw [hall, if_pos hpos]
  · intro ch hch
    unfold content
    rw [broadcast_slotOccupied_unchanged st sig ch (hocc ch hch) (hwf.2 ch hch)]

/-! ## Lemmas on sequences of calls -/

theorem step_done (st : State) :
    step st Op.done =
      some { chans := st.chans ++ [freshChan st.recv.last],
             recv := { last := st.recv.last,
                       dones := st.recv.dones ++ [st.chans.length] } } := by
  simp [step, done_eq]

/-- What `n` calls of `done` in a row return and leave behind. -/
theorem registerN_eq (n : Nat) : ∀ st : State,
    registerN n st =
      some ({ chans := st.chans ++ List.replicate n (freshChan st.recv.last),
              recv := { last := st.recv.last,
                        dones := st.recv.dones ++ List.range' st.chans.length n } },
            List.range' st.chans.length n) := by
  induction n with
  | zero => intro st; simp [registerN]
  | succ n ih =>
    intro st
    simp [registerN, done_eq, ih, List.range'_succ, List.replicate_succ]

theorem WF_registerN {st st1 : State} {chs : List ChanRef} (n : Nat) (hwf : WF st)
    (h : registerN n st = some (st1, chs)) : WF st1 := by
  induction n generalizing st st1 chs with
  | zero =>
    simp only [registerN, Option.some.injEq, Prod.mk.injEq] at h
    obtain ⟨rfl, _⟩ := h
    exact hwf
  | succ n ih =>
    have hd := done_eq st
    have hwf1 := WF_done hwf hd
    have hr := registerN_eq n
      { chans := st.chans ++ [freshChan st.recv.last],
        recv := { last := st.recv.last, dones := st.recv.dones ++ [st.chans.length] } }
    have hwf2 := ih hwf1 hr
    simp only [registerN, hd, hr, Option.bind_eq_bind, Option.some_bind, Option.pure_def,
      Option.some.injEq, Prod.mk.injEq] at h
    obtain ⟨rfl, _⟩ := h
    exact hwf2

/-- The channels handed out by `n` calls of `done` on a state with no cached
signal are allocated and empty. -/
theorem registerN_fresh_getElem? (st : State) (n : Nat) (ch : ChanRef)
    (hch : ch ∈ List.range' st.chans.length n) :
    (st.chans ++ List.replicate n (freshChan st.recv.last))[ch]? =
      some (freshChan st.recv.last) := by
  obtain ⟨hlo, hhi⟩ := List.mem_range'_1.mp hch
  rw [List.getElem?_append_right hlo, List.getElem?_replicate]
  have hlt : ch - st.chans.length < n := Nat.sub_lt_left_of_lt_add hlo hhi
  rw [if_pos hlt]

/-- Every sequence of calls runs to its end; the cached signal after it is
that of its most recent `broadcast`, or the one before it when it has none;
the listener list has only grown at its end; well-formedness is kept. -/
theorem exec_spec (ops : List Op) : ∀ st : State,
    ∃ st1, exec st ops = some st1 ∧
      st1.recv.last = (match lastBroadcast ops with
                       | some s => some s
                       | none => st.recv.last) ∧
      (∃ more, st1.recv.dones = st.recv.dones ++ more) ∧
      (WF st → WF st1) := by
  induction ops with
  | nil => intro st; exact ⟨st, rfl, rfl, ⟨[], by simp⟩, id⟩
  | cons op ops ih =>
    intro st
    cases op with
    | done =>
      obtain ⟨st1, he, hl, ⟨more, hm⟩, hw⟩ := ih
        { chans := st.chans ++ [freshChan st.recv.last],
          recv := { last := st.recv.last, dones := st.recv.dones ++ [st.chans.length] } }
      refine ⟨st1, ?_, ?_, ⟨st.chans.length :: more, ?_⟩, ?_⟩
      · simp [exec, step_done, he]
      · rw [hl]; simp only [lastBroadcast]; cases lastBroadcast ops <;> rfl
      · rw [hm]; simp
      · intro hwf; exact hw (WF_done hwf (done_eq st))
    | broadcast s =>
      obtain ⟨st1, he, hl, ⟨more, hm⟩, hw⟩ := ih (broadcast st s).1
      refine ⟨st1, ?_, ?_, ⟨more, ?_⟩, ?_⟩
      · simp [exec, step, he]
      · rw [hl]; simp only [lastBroadcast]; cases lastBroadcast ops <;> rfl
      · rw [hm]; rfl
      · intro hwf; exact hw (WF_broadcast s hwf)

theorem lastBroadcast_eq_none_iff (ops : List Op) :
    lastBroadcast ops = none ↔ ∀ op ∈ ops, op = Op.done := by
  induction ops with
  | nil => simp [lastBroadcast]
  | cons op ops ih =>
    simp only [lastBroadcast, List.mem_cons, forall_eq_or_imp]
    cases hl : lastBroadcast ops with
    | some s =>
      rw [hl] at ih
      have hno : ¬ ∀ a ∈ ops, a = Op.done := fun h => absurd (ih.mpr h) (by simp)
      simp [hno]
    | none =>
      rw [hl] at ih
      have hall : ∀ a ∈ ops, a = Op.done := ih.mp rfl
      cases op with
      | done => simp only [true_and, true_iff]; exact hall
      | broadcast s => simp

/-- Every state reached from the zero value by calls of `done` and
`broadcast` is well-formed. -/
theorem WF_of_exec_init {ops : List Op} {st : State} (h : exec State.init ops = some st) :
    WF st := by
  obtain ⟨st1, he, _, _, hw⟩ := exec_spec ops State.init
  rw [he] at h
  simp only [Option.some.injEq] at h
  subst h
  exact hw WF_init

theorem slotOccupied_of_content {st : State} {ch : ChanRef} {a : OSSignal}
    {t : List OSSignal} (h : content st ch = some (a :: t)) :
    slotOccupied st.chans ch = true := by
  unfold content at h
  unfold slotOccupied
  cases hc : st.chans[ch]? with
  | none => rw [hc] at h; simp at h
  | some c =>
    rw [hc] at h
    simp only [Option.map_some', Option.some.injEq] at h
    simp [h]

/-- The state after `n` calls of `done` on a registry with no listeners and
no cached signal: the listeners are the `n` returned channels, all empty. -/
theorem registerN_of_empty (st : State) (n : Nat)
    (hdones : st.recv.dones = []) (hlast : st.recv.last = none) :
    ∃ st1 chs, registerN n st = some (st1, chs) ∧ chs.length = n ∧ chs.Nodup ∧
      st1.recv.dones = chs ∧ WF st1 ∧
      ∀ ch ∈ chs, slotOccupied st1.chans ch = false := by
  have hwf : WF st := by
    constructor
    · rw [hdones]; exact List.nodup_nil
    · intro ch hch; rw [hdones] at hch; exact absurd hch (List.not_mem_nil ch)
  refine ⟨_, _, registerN_eq n st, ?_, ?_, ?_, WF_registerN n hwf (registerN_eq n st), ?_⟩
  · exact List.length_range' _ _ _
  · exact List.nodup_range' _ _
  · simp [hdones]
  · intro ch hch
    show slotOccupied (st.chans ++ List.replicate n (freshChan st.recv.last)) ch = false
    unfold slotOccupied
    rw [registerN_fresh_getElem? st n ch hch, hlast]
    rfl

/-- On a well-formed state, a listener takes the broadcast value exactly when
its slot was free. -/
theorem received_iff_free {st : State} (sig : Signal) (hwf : WF st) {ch : ChanRef}
    (hch : ch ∈ st.recv.dones) :
    received st (broadcast st sig).1 sig.OS ch = !slotOccupied st.chans ch := by
  obtain ⟨c, hc, hcap, hlen⟩ := listenerOK_iff.mp (hwf.2 ch hch)
  unfold received content slotOccupied
  rw [broadcast_getElem? sig hwf, if_pos hch, hc]
  cases hb : c.buf with
  | nil => simp [Chan.deliver, Chan.canSend, Chan.push, hb, hcap]
  | cons a t =>
    have ht : t = [] := by
      rw [hb] at hlen
      simp only [List.length_cons] at hlen
      exact List.length_eq_zero.mp (by omega)
    simp [Chan.deliver, Chan.canSend, Chan.push, hb, hcap, ht]

theorem broadcastDone_chans_getElem? {st : State} (sig : Signal)
    (hnd : st.recv.dones.Nodup) (i : Nat) :
    (broadcastDone st sig).1.chans[i]? =
      if i ∈ st.recv.dones then st.chans[i]?.map (Chan.deliver sig.OS) else st.chans[i]? :=
  broadcastDoneLoop_getElem? sig.OS st.recv.dones st.chans 0 hnd i

theorem broadcastDone_chans_not_ready (st : State) (sig : Signal) (i : ChanRef)
    (h : ready st.chans i = false) :
    (broadcastDone st sig).1.chans[i]? = st.chans[i]? :=
  broadcastDoneLoop_not_ready sig.OS st.recv.dones st.chans 0 i h

/-! ## Lemmas on the locks -/

theorem Call.cases (c : Call) :
    (c.next = none ∧ c.held = []) ∨
    (∃ l m, c.next = some (Event.release l m)) ∨ c.next = some Event.work ∨
    (c.next = some (Event.acquire LockId.doneLock Mode.exclusive) ∧ c.held = []) ∨
    (c.next = some (Event.acquire LockId.doneLock Mode.shared) ∧ c.held = []) ∨
    (c.next = some (Event.acquire LockId.lastLock Mode.exclusive) ∧ c.held = []) ∨
    (c.next = some (Event.acquire LockId.lastLock Mode.shared) ∧
      c.held = [(LockId.doneLock, Mode.exclusive)]) := by
  obtain ⟨m, pc⟩ := c
  cases m
  · rcases pc with _ | _ | _ | _ | _ | pc
    · right; right; right; left; exact ⟨rfl, rfl⟩
    · right; right; right; right; right; right; exact ⟨rfl, rfl⟩
    · right; right; left; rfl
    · right; left; exact ⟨_, _, rfl⟩
    · right; left; exact ⟨_, _, rfl⟩
    · left
      constructor
      · simp [Call.next, lockProg]
      · simp [Call.held, lockProg, heldAfter]
  · rcases pc with _ | _ | _ | _ | _ | _ | pc
    · right; right; right; right; right; left; exact ⟨rfl, rfl⟩
    · right; right; left; rfl
    · right; left; exact ⟨_, _, rfl⟩
    · right; right; right; right; left; exact ⟨rfl, rfl⟩
    · right; right; left; rfl
    · right; left; exact ⟨_, _, rfl⟩
    · left
      constructor
      · simp [Call.next, lockProg]
      · simp [Call.held, lockProg, heldAfter]

theorem canStep_of_release_or_work {front back : List Call} {c : Call}
    (h : (∃ l m, c.next = some (Event.release l m)) ∨ c.next = some Event.work) :
    canStep front c back = true := by
  rcases h with ⟨l, m, hn⟩ | hn <;> simp [canStep, hn, enabled]

/-- In every configuration with a call that has not returned, some call can
run its next event. -/
theorem exists_canStep (cfg : List Call) (h : ∃ c ∈ cfg, c.next ≠ none) :
    ∃ front c back, cfg = front ++ c :: back ∧ canStep front c back = true := by
  by_cases hA : ∃ c ∈ cfg,
      (∃ l m, c.next = some (Event.release l m)) ∨ c.next = some Event.work
  · obtain ⟨c, hc, hn⟩ := hA
    obtain ⟨front, back, rfl⟩ := List.append_of_mem hc
    exact ⟨front, c, back, rfl, canStep_of_release_or_work hn⟩
  have hall : ∀ c ∈ cfg,
      (c.next = none ∧ c.held = []) ∨
      (c.next = some (Event.acquire LockId.doneLock Mode.exclusive) ∧ c.held = []) ∨
      (c.next = some (Event.acquire LockId.doneLock Mode.shared) ∧ c.held = []) ∨
      (c.next = some (Event.acquire LockId.lastLock Mode.exclusive) ∧ c.held = []) ∨
      (c.next = some (Event.acquire LockId.lastLock Mode.shared) ∧
        c.held = [(LockId.doneLock, Mode.exclusive)]) := by
    intro c hc
    rcases Call.cases c with h1 | h2 | h3 | h4
    · exact Or.inl h1
    · exact absurd ⟨c, hc, Or.inl h2⟩ hA
    · exact absurd ⟨c, hc, Or.inr h3⟩ hA
    · exact Or.inr h4
  have hsub : ∀ {front back : List Call} {c : Call}, cfg = front ++ c :: back →
      ∀ o ∈ front ++ back, o ∈ cfg := by
    intro front back c hcfg o ho
    rw [hcfg]
    rcases List.mem_append.mp ho with h1 | h1
    · exact List.mem_append_left _ h1
    · exact List.mem_append_right _ (List.mem_cons_of_mem _ h1)
  have hnoLast : ∀ o ∈ cfg, o.holds LockId.lastLock = false ∧
      (LockId.lastLock, Mode.exclusive) ∉ o.held := by
    intro o ho
    rcases hall o ho with ⟨_, hh⟩ | ⟨_, hh⟩ | ⟨_, hh⟩ | ⟨_, hh⟩ | ⟨_, hh⟩ <;>
      simp [Call.holds, hh]
  by_cases hB1 : ∃ c ∈ cfg, c.next = some (Event.acquire LockId.lastLock Mode.exclusive)
  · obtain ⟨c, hc, hn⟩ := hB1
    obtain ⟨front, back, hcfg⟩ := List.append_of_mem hc
    refine ⟨front, c, back, hcfg, ?_⟩
    simp only [canStep, hn, enabled, List.all_eq_true]
    intro o ho
    simp [(hnoLast o (hsub hcfg o ho)).1]
  by_cases hB2 : ∃ c ∈ cfg, c.next = some (Event.acquire LockId.lastLock Mode.shared)
  · obtain ⟨c, hc, hn⟩ := hB2
    obtain ⟨front, back, hcfg⟩ := List.append_of_mem hc
    refine ⟨front, c, back, hcfg, ?_⟩
    simp only [canStep, hn, enabled, List.all_eq_true]
    intro o ho
    have ho1 := hsub hcfg o ho
    have hnw : o.next ≠ some (Event.acquire LockId.lastLock Mode.exclusive) :=
      fun hw => hB1 ⟨o, ho1, hw⟩
    simp [(hnoLast o ho1).2, hnw]
  have hnone : ∀ o ∈ cfg, o.held = [] := by
    intro o ho
    rcases hall o ho with ⟨_, hh⟩ | ⟨_, hh⟩ | ⟨_, hh⟩ | ⟨hn, _⟩ | ⟨hn, _⟩
    · exact hh
    · exact hh
    · exact hh
    · exact absurd ⟨o, ho, hn⟩ hB1
    · exact absurd ⟨o, ho, hn⟩ hB2
  by_cases hB3 : ∃ c ∈ cfg, c.next = some (Event.acquire LockId.doneLock Mode.exclusive)
  · obtain ⟨c, hc, hn⟩ := hB3
    obtain ⟨front, back, hcfg⟩ := List.append_of_mem hc
    refine ⟨front, c, back, hcfg, ?_⟩
    simp only [canStep, hn, enabled, List.all_eq_true]
    intro o ho
    simp [Call.holds, hnone o (hsub hcfg o ho)]
  obtain ⟨c, hc, hne⟩ := h
  have hn : c.next = some (Event.acquire LockId.doneLock Mode.shared) := by
    rcases hall c hc with ⟨hn, _⟩ | ⟨hn, _⟩ | ⟨hn, _⟩ | ⟨hn, _⟩ | ⟨hn, _⟩
    · exact absurd hn hne
    · exact absurd ⟨c, hc, hn⟩ hB3
    · exact hn
    · exact absurd ⟨c, hc, hn⟩ hB1
    · exact absurd ⟨c, hc, hn⟩ hB2
  obtain ⟨front, back, hcfg⟩ := List.append_of_mem hc
  refine ⟨front, c, back, hcfg, ?_⟩
  simp only [canStep, hn, enabled, List.all_eq_true]
  intro o ho
  have ho1 := hsub hcfg o ho
  have hnw : o.next ≠ some (Event.acquire LockId.doneLock Mode.exclusive) :=
    fun hw => hB3 ⟨o, ho1, hw⟩
  simp [hnone o ho1, hnw]

/-- No call holds `lastLock` while its next event is to acquire a lock. -/
theorem not_holds_lastLock_of_waitsFor (c : Call) (l : LockId)
    (h : c.waitsFor l = true) : c.holds LockId.lastLock = false := by
  unfold Call.waitsFor at h
  rcases Call.cases c with ⟨hn, _⟩ | ⟨_, _, hn⟩ | hn | ⟨_, hh⟩ | ⟨_, hh⟩ | ⟨_, hh⟩ | ⟨_, hh⟩
  · rw [hn] at h; simp at h
  · rw [hn] at h; simp at h
  · rw [hn] at h; simp at h
  all_goals simp [Call.holds, hh]

/-- A call can be held up: `broadcast` cannot take `lastLock` while a call of
`done` holds it, and goes on once that call has released it. -/
theorem canStep_blocked_then_free :
    canStep [{ method := Method.done, pc := 2 }] { method := Method.broadcast, pc := 0 } [] =
        false ∧
      canStep [{ method := Method.done, pc := 4 }] { method := Method.broadcast, pc := 0 } [] =
        true := by
  constructor <;> decide

/-- The message of an error for two listeners of which one was full. -/
theorem Error_example :
    unsentSignalError.Error goSignalName { Signal := SIGTERM, Unsent := 1, Channels := 2 } =
      "send terminated signal: 1/2 channels are blocked" := by
  decide

/-! ## The claims -/

/-- C1: from a registry with no listeners and no cached signal, `N` calls of
`done` followed by one `broadcast sig` leave each of the `N` returned
channels (they are distinct) holding exactly one value, `sig.OS`, and the
broadcast returns nil. -/
theorem registerN_then_broadcast (st : State) (N : Nat) (sig : Signal)
    (hdones : st.recv.dones = []) (hlast : st.recv.last = none) :
    ∃ st1 chs, registerN N st = some (st1, chs) ∧ chs.length = N ∧ chs.Nodup ∧
      (broadcast st1 sig).2 = none ∧
      ∀ ch ∈ chs, content (broadcast st1 sig).1 ch = some [sig.OS] := by
  obtain ⟨st1, chs, hreg, hlen, hnd, hd, hwf, hfree⟩ := registerN_of_empty st N hdones hlast
  rw [← hd] at hfree
  have hb := broadcast_all_free sig hwf hfree
  rw [hd] at hb
  exact ⟨st1, chs, hreg, hlen, hnd, hb.1, hb.2⟩

theorem registerN_then_broadcast_witness :
    State.init.recv.dones = [] ∧ State.init.recv.last = none ∧
      ∃ st1 chs, registerN 3 State.init = some (st1, chs) ∧ chs.length = 3 ∧ chs.Nodup ∧
        (broadcast st1 SIGINT).2 = none ∧
        ∀ ch ∈ chs, content (broadcast st1 SIGINT).1 ch = some [SIGINT.OS] :=
  ⟨rfl, rfl, registerN_then_broadcast State.init 3 SIGINT rfl rfl⟩

/-- C2: after any sequence of calls whose most recent `broadcast` was of
`sig`, whether that call returned an error or not, the next `done` returns a
channel that already holds exactly one value, `sig.OS`. -/
theorem done_after_broadcast (st0 : State) (ops : List Op) (sig : Signal)
    (h : lastBroadcast ops = some sig) :
    ∃ st st1 c, exec st0 ops = some st ∧ done st = some (st1, c) ∧
      content st1 c = some [sig.OS] := by
  obtain ⟨st, he, hl, _, _⟩ := exec_spec ops st0
  rw [h] at hl
  refine ⟨st, _, _, he, done_eq st, ?_⟩
  show (st.chans ++ [freshChan st.recv.last])[st.chans.length]?.map Chan.buf = some [sig.OS]
  rw [List.getElem?_concat_length, hl]
  rfl

theorem done_after_broadcast_witness :
    lastBroadcast [Op.done, Op.broadcast SIGINT, Op.broadcast SIGTERM, Op.done] =
        some SIGTERM ∧
      ∃ st st1 c,
        exec State.init [Op.done, Op.broadcast SIGINT, Op.broadcast SIGTERM, Op.done] =
          some st ∧
        done st = some (st1, c) ∧ content st1 c = some [SIGTERM.OS] :=
  ⟨by decide,
    done_after_broadcast State.init
      [Op.done, Op.broadcast SIGINT, Op.broadcast SIGTERM, Op.done] SIGTERM (by decide)⟩

/-- C3: on a well-formed state, `broadcast` returns a non-nil error exactly
when some registered listener channel has its buffer slot occupied when the
fan-out starts; with no listeners it returns nil. -/
theorem broadcast_err_iff_slotOccupied (st : State) (sig : Signal) (hwf : WF st) :
    ((broadcast st sig).2 ≠ none ↔
        ∃ ch ∈ st.recv.dones, slotOccupied st.chans ch = true) ∧
      (st.recv.dones = [] → (broadcast st sig).2 = none) := by
  have hiff : (broadcast st sig).2 ≠ none ↔
      ∃ ch ∈ st.recv.dones, slotOccupied st.chans ch = true := by
    rw [broadcast_err, broadcast_unsent_eq sig hwf]
    by_cases h0 : st.recv.dones.countP (slotOccupied st.chans) = 0
    · have hnone : ¬ ∃ ch ∈ st.recv.dones, slotOccupied st.chans ch = true := by
        rintro ⟨ch, hch, hocc⟩
        exact absurd h0 (Nat.pos_iff_ne_zero.mp (List.countP_pos_iff.mpr ⟨ch, hch, hocc⟩))
      simp [h0, hnone]
    · have hsome : ∃ ch ∈ st.recv.dones, slotOccupied st.chans ch = true :=
        List.countP_pos_iff.mp (Nat.pos_of_ne_zero h0)
      simp [h0, hsome]
  refine ⟨hiff, ?_⟩
  intro hnil
  by_contra hne
  obtain ⟨ch, hch, _⟩ := hiff.mp hne
  rw [hnil] at hch
  exact absurd hch (List.not_mem_nil ch)

theorem broadcast_err_iff_slotOccupied_witness :
    WF stHalf ∧
      (((broadcast stHalf SIGTERM).2 ≠ none ↔
          ∃ ch ∈ stHalf.recv.dones, slotOccupied stHalf.chans ch = true) ∧
        (stHalf.recv.dones = [] → (broadcast stHalf SIGTERM).2 = none)) :=
  ⟨by decide, broadcast_err_iff_slotOccupied stHalf SIGTERM (by decide)⟩

/-- C4: on a well-formed state, an error returned by `broadcast sig` carries
`sig`, the number of registered listener channels that were full before the
call (one for each) as `Unsent`, and the number of registered listeners as
`Channels`. -/
theorem broadcast_err_fields (st : State) (sig : Signal) (e : unsentSignalError)
    (hwf : WF st) (he : (broadcast st sig).2 = some e) :
    e.Signal = sig ∧
      e.Unsent = st.recv.dones.countP (slotOccupied st.chans) ∧
      e.Channels = st.recv.dones.length := by
  rw [broadcast_err, broadcast_unsent_eq sig hwf] at he
  split at he
  · simp only [Option.some.injEq] at he
    subst he
    exact ⟨rfl, rfl, rfl⟩
  · exact absurd he (by simp)

theorem broadcast_err_fields_witness :
    WF stHalf ∧
      (broadcast stHalf SIGTERM).2 = some { Signal := SIGTERM, Unsent := 1, Channels := 2 } ∧
      (SIGTERM = SIGTERM ∧
        1 = stHalf.recv.dones.countP (slotOccupied stHalf.chans) ∧
        2 = stHalf.recv.dones.length) :=
  ⟨by decide, by decide,
    broadcast_err_fields stHalf SIGTERM { Signal := SIGTERM, Unsent := 1, Channels := 2 }
      (by decide) (by decide)⟩

/-- C6: on a well-formed state, `broadcast` leaves every listener channel
that was full before the call exactly as it was, and the `unsent` count of
the fan-out is the number of those channels: each is counted once, and the
call returns. -/
theorem broadcast_full_untouched (st : State) (sig : Signal) (hwf : WF st) :
    (∀ ch ∈ st.recv.dones, slotOccupied st.chans ch = true →
        (broadcast st sig).1.chans[ch]? = st.chans[ch]?) ∧
      (broadcastDone (setLast st sig) sig).2.2 =
        st.recv.dones.countP (slotOccupied st.chans) := by
  constructor
  · intro ch hch hocc
    exact broadcast_slotOccupied_unchanged st sig ch hocc (hwf.2 ch hch)
  · rw [broadcastDone_unsent, broadcast_unsent_eq sig hwf]

theorem broadcast_full_untouched_witness :
    WF stHalf ∧
      ((∀ ch ∈ stHalf.recv.dones, slotOccupied stHalf.chans ch = true →
          (broadcast stHalf SIGTERM).1.chans[ch]? = stHalf.chans[ch]?) ∧
        (broadcastDone (setLast stHalf SIGTERM) SIGTERM).2.2 =
          stHalf.recv.dones.countP (slotOccupied stHalf.chans)) :=
  ⟨by decide, broadcast_full_untouched stHalf SIGTERM (by decide)⟩

/-- C7: on a well-formed state, after `broadcast sig` every listener channel
whose buffer slot was empty before the call holds `sig.OS`, wherever it
stands in the listener list and whatever the channels before it hold; the
error is computed from the count of the completed fan-out, whose state is the
one `broadcast` leaves. -/
theorem broadcast_delivers_to_empty (st : State) (sig : Signal) (hwf : WF st) :
    (∀ (front back : List ChanRef) (ch : ChanRef),
        st.recv.dones = front ++ ch :: back → slotOccupied st.chans ch = false →
        content (broadcast st sig).1 ch = some [sig.OS]) ∧
      (broadcast st sig).1 = (broadcastDone (setLast st sig) sig).1 ∧
      ((broadcast st sig).2 ≠ none ↔ (broadcastDone (setLast st sig) sig).2.2 ≠ 0) := by
  refine ⟨?_, rfl, ?_⟩
  · intro front back ch hsplit hfree
    have hch : ch ∈ st.recv.dones := by rw [hsplit]; simp
    obtain ⟨c, hc, hcap, hlen⟩ := listenerOK_iff.mp (hwf.2 ch hch)
    have hbuf : c.buf = [] := by
      unfold slotOccupied at hfree
      rw [hc] at hfree
      simpa using hfree
    unfold content
    rw [broadcast_getElem? sig hwf, if_pos hch, hc]
    simp [Chan.deliver, Chan.canSend, Chan.push, hbuf, hcap]
  · rw [broadcastDone_unsent, broadcast_err]
    split <;> simp_all

theorem broadcast_delivers_to_empty_witness :
    WF stHalf ∧
      ((∀ (front back : List ChanRef) (ch : ChanRef),
          stHalf.recv.dones = front ++ ch :: back → slotOccupied stHalf.chans ch = false →
          content (broadcast stHalf SIGTERM).1 ch = some [SIGTERM.OS]) ∧
        (broadcast stHalf SIGTERM).1 = (broadcastDone (setLast stHalf SIGTERM) SIGTERM).1 ∧
        ((broadcast stHalf SIGTERM).2 ≠ none ↔
          (broadcastDone (setLast stHalf SIGTERM) SIGTERM).2.2 ≠ 0)) :=
  ⟨by decide, broadcast_delivers_to_empty stHalf SIGTERM (by decide)⟩

/-- C5: for `s1 ≠ s2`, after `broadcast s1`, a `done` returning `c`, and
`broadcast s2` with nothing drained, the cached signal is `s2`, and `c` holds
exactly `s1.OS`, which it got at registration, and not `s2.OS`. -/
theorem broadcast_done_broadcast (st : State) (s1 s2 : Signal) (hne : s1 ≠ s2) :
    ∃ st2 c, done (broadcast st s1).1 = some (st2, c) ∧
      content st2 c = some [s1.OS] ∧
      (broadcast st2 s2).1.recv.last = some s2 ∧
      content (broadcast st2 s2).1 c = some [s1.OS] ∧
      s2.OS ∉ [s1.OS] := by
  have hnew : ∀ chans : List Chan,
      (chans ++ [freshChan (some s1)])[chans.length]? = some (freshChan (some s1)) :=
    fun chans => List.getElem?_concat_length _ _
  refine ⟨_, _, done_eq (broadcast st s1).1, ?_, rfl, ?_, ?_⟩
  · show ((broadcast st s1).1.chans ++
      [freshChan (some s1)])[(broadcast st s1).1.chans.length]?.map Chan.buf = some [s1.OS]
    rw [hnew]; rfl
  · unfold content
    rw [broadcast_chans]
    rw [broadcastDoneLoop_not_ready]
    · show ((broadcast st s1).1.chans ++
        [freshChan (some s1)])[(broadcast st s1).1.chans.length]?.map Chan.buf = some [s1.OS]
      rw [hnew]; rfl
    · show ready ((broadcast st s1).1.chans ++ [freshChan (some s1)])
        (broadcast st s1).1.chans.length = false
      unfold ready
      rw [hnew]; rfl
  · intro hmem
    have hos : s2.OS = s1.OS := List.mem_singleton.mp hmem
    apply hne
    cases s1; cases s2
    simp only [Signal.mk.injEq]
    exact hos.symm

theorem broadcast_done_broadcast_witness :
    SIGINT ≠ SIGTERM ∧
      ∃ st2 c, done (broadcast stHalf SIGINT).1 = some (st2, c) ∧
        content st2 c = some [SIGINT.OS] ∧
        (broadcast st2 SIGTERM).1.recv.last = some SIGTERM ∧
        content (broadcast st2 SIGTERM).1 c = some [SIGINT.OS] ∧
        SIGTERM.OS ∉ [SIGINT.OS] :=
  ⟨by decide, broadcast_done_broadcast stHalf SIGINT SIGTERM (by decide)⟩

/-- C8: after every finite sequence of `done` and `broadcast` calls from the
initial registry, the cached `last` is the signal of the most recent
`broadcast` of the sequence, so it is absent exactly when the sequence has no
`broadcast`; `done` leaves it as it is, and once present it stays present
under every further sequence of calls. -/
theorem last_is_most_recent_broadcast (ops : List Op) :
    ∃ st, exec State.init ops = some st ∧
      st.recv.last = lastBroadcast ops ∧
      (st.recv.last = none ↔ ∀ op ∈ ops, op = Op.done) ∧
      (∃ st1 c, done st = some (st1, c) ∧ st1.recv.last = st.recv.last) ∧
      (∀ more : List Op, ∃ st2, exec st more = some st2 ∧
        (st.recv.last ≠ none → st2.recv.last ≠ none)) := by
  obtain ⟨st, he, hl, _, _⟩ := exec_spec ops State.init
  have hlast : st.recv.last = lastBroadcast ops := by
    rw [hl]; cases lastBroadcast ops <;> rfl
  refine ⟨st, he, hlast, ?_, ⟨_, _, done_eq st, rfl⟩, ?_⟩
  · rw [hlast]; exact lastBroadcast_eq_none_iff ops
  · intro more
    obtain ⟨st2, he2, hl2, _, _⟩ := exec_spec more st
    refine ⟨st2, he2, ?_⟩
    intro hsome
    rw [hl2]
    cases lastBroadcast more with
    | some s => simp
    | none => exact hsome

/-- C9: `done` appends the channel it returns at the end of the listener
list, which grows by exactly one; after every later sequence of `done` and
`broadcast` calls the list still starts with the same listeners in the same
order, the channel at the position it was given; and `broadcast` leaves the
list as it is. -/
theorem done_appends_and_stays (st : State) :
    ∃ st1 c, done st = some (st1, c) ∧
      st1.recv.dones = st.recv.dones ++ [c] ∧
      st1.recv.dones.length = st.recv.dones.length + 1 ∧
      (∀ ops : List Op, ∃ st2 more, exec st1 ops = some st2 ∧
        st2.recv.dones = st.recv.dones ++ c :: more ∧
        st2.recv.dones[st.recv.dones.length]? = some c) ∧
      (∀ (s : State) (sig : Signal), (broadcast s sig).1.recv.dones = s.recv.dones) := by
  refine ⟨_, _, done_eq st, rfl, ?_, ?_, fun _ _ => rfl⟩
  · show (st.recv.dones ++ [st.chans.length]).length = st.recv.dones.length + 1
    simp
  · intro ops
    obtain ⟨st2, he, _, ⟨more, hm⟩, _⟩ := exec_spec ops
      { chans := st.chans ++ [freshChan st.recv.last],
        recv := { last := st.recv.last, dones := st.recv.dones ++ [st.chans.length] } }
    have hd : st2.recv.dones = st.recv.dones ++ st.chans.length :: more := by
      rw [hm]; simp
    refine ⟨st2, more, he, hd, ?_⟩
    rw [hd, List.getElem?_append_right (Nat.le_refl _)]
    simp

/-- C10: for `N ≥ 1`, on a fresh registry, `N` calls of `done` followed by
`broadcast s1` and `broadcast s2` with no channel drained: the first
broadcast returns nil and every channel holds `s1.OS`; the second returns an
error with `Unsent = N` and `Channels = N`, and every channel still holds
`s1.OS`. -/
theorem registerN_two_broadcasts (N : Nat) (s1 s2 : Signal) (hN : 1 ≤ N) :
    ∃ st1 chs, registerN N State.init = some (st1, chs) ∧ chs.length = N ∧
      (broadcast st1 s1).2 = none ∧
      (∀ ch ∈ chs, content (broadcast st1 s1).1 ch = some [s1.OS]) ∧
      (broadcast (broadcast st1 s1).1 s2).2 =
        some { Signal := s2, Unsent := N, Channels := N } ∧
      (∀ ch ∈ chs, content (broadcast (broadcast st1 s1).1 s2).1 ch = some [s1.OS]) := by
  obtain ⟨st1, chs, hreg, hlen, hnd, hd, hwf, hfree⟩ :=
    registerN_of_empty State.init N rfl rfl
  rw [← hd] at hfree
  obtain ⟨herr1, hall1⟩ := broadcast_all_free s1 hwf hfree
  have hwf2 : WF (broadcast st1 s1).1 := WF_broadcast s1 hwf
  have hd2 : (broadcast st1 s1).1.recv.dones = chs := hd
  have hocc : ∀ ch ∈ (broadcast st1 s1).1.recv.dones,
      slotOccupied (broadcast st1 s1).1.chans ch = true := by
    intro ch hch
    exact slotOccupied_of_content (hall1 ch hch)
  have hne : (broadcast st1 s1).1.recv.dones ≠ [] := by
    intro hnil
    rw [hd2] at hnil
    rw [hnil] at hlen
    simp at hlen
    omega
  obtain ⟨herr2, hall2⟩ := broadcast_all_occupied s2 hwf2 hocc hne
  rw [hd2, hlen] at herr2
  refine ⟨st1, chs, hreg, hlen, herr1, ?_, herr2, ?_⟩
  · intro ch hch; exact hall1 ch (hd ▸ hch)
  · intro ch hch
    rw [hall2 ch (hd2 ▸ hch)]
    exact hall1 ch (hd ▸ hch)

theorem registerN_two_broadcasts_witness :
    1 ≤ 2 ∧
      ∃ st1 chs, registerN 2 State.init = some (st1, chs) ∧ chs.length = 2 ∧
        (broadcast st1 SIGINT).2 = none ∧
        (∀ ch ∈ chs, content (broadcast st1 SIGINT).1 ch = some [SIGINT.OS]) ∧
        (broadcast (broadcast st1 SIGINT).1 SIGTERM).2 =
          some { Signal := SIGTERM, Unsent := 2, Channels := 2 } ∧
        (∀ ch ∈ chs,
          content (broadcast (broadcast st1 SIGINT).1 SIGTERM).1 ch = some [SIGINT.OS]) :=
  ⟨by decide, registerN_two_broadcasts 2 SIGINT SIGTERM (by decide)⟩

/-- C11 (as stated, refuted): `broadcast` hands its caller the error alone.
On a registry with no listeners and on one with a single free listener it
returns the same value, nil, so no function of the result gives the number
of registered listeners. -/
theorem broadcast_result_hides_counts :
    (broadcast State.init SIGINT).2 = none ∧ (broadcast stOne SIGINT).2 = none ∧
      (broadcastDone (setLast State.init SIGINT) SIGINT).2.1 = 0 ∧
      (broadcastDone (setLast stOne SIGINT) SIGINT).2.1 = 1 ∧
      ¬ ∃ f : Option unsentSignalError → Nat,
          ∀ (st : State) (sig : Signal), f (broadcast st sig).2 = st.recv.dones.length := by
  refine ⟨by decide, by decide, by decide, by decide, ?_⟩
  rintro ⟨f, hf⟩
  have h0 := hf State.init SIGINT
  have h1 := hf stOne SIGINT
  have e0 : (broadcast State.init SIGINT).2 = none := by decide
  have e1 : (broadcast stOne SIGINT).2 = none := by decide
  rw [e0] at h0
  rw [e1] at h1
  rw [h0] at h1
  exact absurd h1 (by decide)

/-- C11 (amended): `broadcast` returns the optional error and nothing else:
nil when the unsent count of `broadcastDone` is 0, and otherwise an
`unsentSignalError` carrying the signal, that unsent count and the listener
count of `broadcastDone`, which is the length of the listener list. -/
theorem broadcast_returns_err_only (st : State) (sig : Signal) :
    (broadcast st sig).2 =
        (if (broadcastDone (setLast st sig) sig).2.2 = 0 then none
         else some { Signal := sig,
                     Unsent := (broadcastDone (setLast st sig) sig).2.2,
                     Channels := (broadcastDone (setLast st sig) sig).2.1 }) ∧
      (broadcastDone (setLast st sig) sig).2.1 = st.recv.dones.length := by
  refine ⟨?_, rfl⟩
  rw [broadcast_err, broadcastDone_unsent]
  by_cases h : (broadcastDoneLoop sig.OS st.recv.dones st.chans 0).2 = 0
  · simp [h]
  · simp only [ne_eq, h, not_false_eq_true, if_true, if_false]
    rfl

/-- C12: `done` returns in every state, and the channel it returns has
capacity exactly 1; when a signal is cached, the send of it into the new
channel can proceed (it does not block) and the channel then holds that
signal; when no signal is cached the channel is empty. -/
theorem done_never_blocks (st : State) :
    ∃ st1 c ch, done st = some (st1, c) ∧ st1.chans[c]? = some ch ∧ ch.cap = 1 ∧
      (∀ s, st.recv.last = some s →
        (send (makeChan st.chans 1).1 (makeChan st.chans 1).2 s.OS).isSome = true ∧
          ch.buf = [s.OS]) ∧
      (st.recv.last = none → ch.buf = []) := by
  refine ⟨_, _, freshChan st.recv.last, done_eq st, List.getElem?_concat_length _ _, rfl,
    ?_, ?_⟩
  · intro s hs
    have hnew : (st.chans ++ [({ cap := 1, buf := [] } : Chan)])[st.chans.length]? =
        some { cap := 1, buf := [] } := List.getElem?_concat_length _ _
    constructor
    · show (send (st.chans ++ [{ cap := 1, buf := [] }]) st.chans.length s.OS).isSome = true
      rw [send_of_ready s.OS hnew (by decide)]
      rfl
    · rw [hs]; rfl
  · intro hnone
    rw [hnone]; rfl

/-- C15: on a well-formed state, the pair `(receivers, unsent)` of
`broadcastDone` has `receivers` equal to the length of the listener list,
`unsent ≤ receivers`, and `receivers - unsent` equal to the number of
listener channels that took the signal; so every error of `broadcast` has
`1 ≤ Unsent ≤ Channels`. -/
theorem broadcastDone_counts (st : State) (sig : Signal) (hwf : WF st) :
    (broadcastDone (setLast st sig) sig).2.1 = st.recv.dones.length ∧
      (broadcastDone (setLast st sig) sig).2.2 ≤ (broadcastDone (setLast st sig) sig).2.1 ∧
      (broadcastDone (setLast st sig) sig).2.1 - (broadcastDone (setLast st sig) sig).2.2 =
        st.recv.dones.countP
          (received st (broadcastDone (setLast st sig) sig).1 sig.OS) ∧
      (∀ e, (broadcast st sig).2 = some e → 1 ≤ e.Unsent ∧ e.Unsent ≤ e.Channels) := by
  have hrecv : (broadcastDone (setLast st sig) sig).2.1 = st.recv.dones.length := rfl
  have hst : (broadcastDone (setLast st sig) sig).1 = (broadcast st sig).1 := rfl
  have hun : (broadcastDone (setLast st sig) sig).2.2 =
      st.recv.dones.countP (slotOccupied st.chans) := by
    rw [broadcastDone_unsent, broadcast_unsent_eq sig hwf]
  have hle : st.recv.dones.countP (slotOccupied st.chans) ≤ st.recv.dones.length :=
    List.countP_le_length _
  have hsplit := List.length_eq_countP_add_countP (slotOccupied st.chans) st.recv.dones
  have hcongr : st.recv.dones.countP (received st (broadcast st sig).1 sig.OS) =
      st.recv.dones.countP (fun a => decide ¬slotOccupied st.chans a = true) := by
    apply List.countP_congr
    intro x hx
    rw [received_iff_free sig hwf hx]
    simp
  refine ⟨hrecv, ?_, ?_, ?_⟩
  · rw [hun, hrecv]; exact hle
  · rw [hun, hrecv, hst, hcongr]; omega
  · intro e he
    rw [broadcast_err, broadcast_unsent_eq sig hwf] at he
    split at he
    · rename_i hne
      simp only [Option.some.injEq] at he
      subst he
      exact ⟨Nat.pos_of_ne_zero hne, hle⟩
    · exact absurd he (by simp)

theorem broadcastDone_counts_witness :
    WF stHalf ∧
      ((broadcastDone (setLast stHalf SIGTERM) SIGTERM).2.1 = stHalf.recv.dones.length ∧
        (broadcastDone (setLast stHalf SIGTERM) SIGTERM).2.2 ≤
          (broadcastDone (setLast stHalf SIGTERM) SIGTERM).2.1 ∧
        (broadcastDone (setLast stHalf SIGTERM) SIGTERM).2.1 -
            (broadcastDone (setLast stHalf SIGTERM) SIGTERM).2.2 =
          stHalf.recv.dones.countP
            (received stHalf (broadcastDone (setLast stHalf SIGTERM) SIGTERM).1 SIGTERM.OS) ∧
        (∀ e, (broadcast stHalf SIGTERM).2 = some e → 1 ≤ e.Unsent ∧ e.Unsent ≤ e.Channels)) :=
  ⟨by decide, broadcastDone_counts stHalf SIGTERM (by decide)⟩

/-- C16: `done` leaves the cached signal as it is, keeps every listener at
its position and adds the returned channel after them, and leaves every
channel allocated before the call as it was, so that every listener of a
well-formed state keeps its content; the one new channel holds the cached
signal if there is one and nothing otherwise. -/
theorem done_frame (st : State) :
    ∃ st1 c, done st = some (st1, c) ∧
      st1.recv.last = st.recv.last ∧
      st1.recv.dones = st.recv.dones ++ [c] ∧
      (∀ i, i < st.recv.dones.length → st1.recv.dones[i]? = st.recv.dones[i]?) ∧
      st1.chans.length = st.chans.length + 1 ∧ c = st.chans.length ∧
      (∀ ch, ch < st.chans.length → st1.chans[ch]? = st.chans[ch]?) ∧
      (WF st → ∀ ch ∈ st.recv.dones, content st1 ch = content st ch) ∧
      content st1 c = some (match st.recv.last with
                            | some s => [s.OS]
                            | none => []) := by
  have hold : ∀ ch, ch < st.chans.length →
      (st.chans ++ [freshChan st.recv.last])[ch]? = st.chans[ch]? :=
    fun ch hlt => List.getElem?_append_left hlt
  refine ⟨_, _, done_eq st, rfl, rfl, ?_, ?_, rfl, hold, ?_, ?_⟩
  · intro i hi
    exact List.getElem?_append_left hi
  · show (st.chans ++ [freshChan st.recv.last]).length = st.chans.length + 1
    simp
  · intro hwf ch hch
    obtain ⟨c, hc, _⟩ := listenerOK_iff.mp (hwf.2 ch hch)
    have hlt : ch < st.chans.length := (List.getElem?_eq_some.mp hc).1
    show (st.chans ++ [freshChan st.recv.last])[ch]?.map Chan.buf = st.chans[ch]?.map Chan.buf
    rw [hold ch hlt]
  · show (st.chans ++ [freshChan st.recv.last])[st.chans.length]?.map Chan.buf = _
    rw [List.getElem?_concat_length]
    rfl

/-- C13 (as stated, refuted): on a registry that already caches `SIGINT`,
when `done` runs before `broadcast SIGTERM` sets `recv.last`, the returned
channel ends up holding `SIGINT`, the signal cached before the broadcast, and
not `SIGTERM`: the new listener has missed the signal of this broadcast. -/
theorem interleave_doneFirst_keeps_earlier :
    stHalf.recv.last = some SIGINT ∧
      (interleave stHalf SIGTERM Schedule.doneFirst).map (fun r => content r.1 r.2) =
        some (some [SIGINT.OS]) ∧
      (interleave stHalf SIGTERM Schedule.doneFirst).map (fun r => content r.1 r.2) ≠
        some (some [SIGTERM.OS]) := by
  refine ⟨rfl, ?_, ?_⟩ <;> decide

/-- C13 (amended): on a well-formed state, under each of the three schedules
of one `done` with one `broadcast sig`, both calls return and the channel
returned by `done` holds exactly one signal, never none: `sig.OS`, or, only
when `done` ran before `recv.last` was set and a signal was cached before
the broadcast, that earlier cached signal.  With no signal cached before, it
holds `sig.OS` under every schedule. -/
theorem interleave_never_empty (st : State) (sig : Signal) (sch : Schedule) (hwf : WF st) :
    ∃ st1 c, interleave st sig sch = some (st1, c) ∧
      (content st1 c = some [sig.OS] ∨
        (sch = Schedule.doneFirst ∧
          ∃ s0, st.recv.last = some s0 ∧ content st1 c = some [s0.OS])) ∧
      (st.recv.last = none → content st1 c = some [sig.OS]) := by
  have hnew : ∀ (chans : List Chan) (l : Option Signal),
      (chans ++ [freshChan l])[chans.length]? = some (freshChan l) :=
    fun chans l => List.getElem?_concat_length _ _
  cases sch with
  | doneFirst =>
    have hwf1 := WF_done hwf (done_eq st)
    have hmem : st.chans.length ∈ st.recv.dones ++ [st.chans.length] := by simp
    have hc : content (broadcastDone (setLast
        { chans := st.chans ++ [freshChan st.recv.last],
          recv := { last := st.recv.last, dones := st.recv.dones ++ [st.chans.length] } }
        sig) sig).1 st.chans.length =
        some (Chan.deliver sig.OS (freshChan st.recv.last)).buf := by
      have hget := @broadcastDone_chans_getElem? (setLast
        { chans := st.chans ++ [freshChan st.recv.last],
          recv := { last := st.recv.last, dones := st.recv.dones ++ [st.chans.length] } }
        sig) sig hwf1.1 st.chans.length
      unfold content
      rw [hget]
      show (if st.chans.length ∈ st.recv.dones ++ [st.chans.length] then
          (st.chans ++ [freshChan st.recv.last])[st.chans.length]?.map (Chan.deliver sig.OS)
        else (st.chans ++ [freshChan st.recv.last])[st.chans.length]?).map Chan.buf = _
      rw [if_pos hmem, hnew]
      rfl
    refine ⟨_, _, by simp only [interleave, done_eq]; rfl, ?_, ?_⟩
    · rw [hc]
      cases hl : st.recv.last with
      | none => left; rfl
      | some s0 => right; exact ⟨rfl, s0, rfl, rfl⟩
    · intro hnone
      rw [hc, hnone]; rfl
  | doneBetween =>
    have hc : content (broadcastDone
        { chans := st.chans ++ [freshChan (some sig)],
          recv := { last := some sig, dones := st.recv.dones ++ [st.chans.length] } }
        sig).1 st.chans.length = some [sig.OS] := by
      unfold content
      rw [broadcastDone_chans_not_ready]
      · show (st.chans ++ [freshChan (some sig)])[st.chans.length]?.map Chan.buf = _
        rw [hnew]; rfl
      · show ready (st.chans ++ [freshChan (some sig)]) st.chans.length = false
        unfold ready
        rw [hnew]; rfl
    refine ⟨_, _, by simp only [interleave, done_eq]; rfl, Or.inl hc, fun _ => hc⟩
  | doneLast =>
    have hc : content
        { chans := (broadcastDone (setLast st sig) sig).1.chans ++ [freshChan (some sig)],
          recv := { last := some sig,
                    dones := st.recv.dones ++
                      [(broadcastDone (setLast st sig) sig).1.chans.length] } }
        (broadcastDone (setLast st sig) sig).1.chans.length = some [sig.OS] := by
      unfold content
      show ((broadcastDone (setLast st sig) sig).1.chans ++
        [freshChan (some sig)])[(broadcastDone (setLast st sig) sig).1.chans.length]?.map
          Chan.buf = _
      rw [hnew]; rfl
    refine ⟨_, _, by simp only [interleave]; exact done_eq _, Or.inl hc, fun _ => hc⟩

theorem interleave_never_empty_witness :
    WF stHalf ∧
      ∃ st1 c, interleave stHalf SIGTERM Schedule.doneFirst = some (st1, c) ∧
        (content st1 c = some [SIGTERM.OS] ∨
          (Schedule.doneFirst = Schedule.doneFirst ∧
            ∃ s0, stHalf.recv.last = some s0 ∧ content st1 c = some [s0.OS])) ∧
        (stHalf.recv.last = none → content st1 c = some [SIGTERM.OS]) :=
  ⟨by decide, interleave_never_empty stHalf SIGTERM Schedule.doneFirst (by decide)⟩

/-- C14: `done` takes `doneLock` exclusively and then, still holding it,
`lastLock` shared; `broadcast` takes `lastLock` exclusively and then
`doneLock` shared.  No call holds `lastLock` while it waits for `doneLock`,
so there is no pair of calls each holding the lock the other waits for, and
in every configuration of calls in progress some call that has not returned
can run its next event: the calls cannot deadlock. -/
theorem lock_order_no_deadlock :
    acquisitions (lockProg Method.done) =
        [(LockId.doneLock, Mode.exclusive), (LockId.lastLock, Mode.shared)] ∧
      acquisitions (lockProg Method.broadcast) =
        [(LockId.lastLock, Mode.exclusive), (LockId.doneLock, Mode.shared)] ∧
      (∃ c : Call, c.holds LockId.doneLock = true ∧ c.waitsFor LockId.lastLock = true) ∧
      (∀ c : Call, c.waitsFor LockId.doneLock = true → c.holds LockId.lastLock = false) ∧
      (¬ ∃ c1 c2 : Call,
          (c1.holds LockId.lastLock = true ∧ c1.waitsFor LockId.doneLock = true) ∧
          (c2.holds LockId.doneLock = true ∧ c2.waitsFor LockId.lastLock = true)) ∧
      (∀ cfg : List Call, (∃ c ∈ cfg, c.next ≠ none) →
        ∃ front c back, cfg = front ++ c :: back ∧ canStep front c back = true) := by
  refine ⟨by decide, by decide, ⟨⟨Method.done, 1⟩, by decide, by decide⟩, ?_, ?_, exists_canStep⟩
  · intro c hc
    exact not_holds_lastLock_of_waitsFor c _ hc
  · rintro ⟨c1, c2, ⟨hh, hw⟩, _⟩
    rw [not_holds_lastLock_of_waitsFor c1 _ hw] at hh
    exact absurd hh (by decide)

/-- C17: `Error` is `"send "`, the `String` of the signal, `" signal: "`, the
unsent count in decimal, `"/"`, the channel count in decimal and
`" channels are blocked"`, in this order; `Signal.String` is the rendering
of the wrapped `os.Signal` and so the same for signals with the same `OS`. -/
theorem Error_eq (render : OSSignal → String) (e : unsentSignalError) :
    e.Error render =
        "send " ++ e.Signal.String render ++ " signal: " ++ Nat.repr e.Unsent ++ "/" ++
          Nat.repr e.Channels ++ " channels are blocked" ∧
      e.Signal.String render = render e.Signal.OS ∧
      (∀ s1 s2 : Signal, s1.OS = s2.OS → s1.String render = s2.String render) := by
  refine ⟨?_, ?_, ?_⟩
  · apply String.ext
    simp [unsentSignalError.Error, Sprintf, sprintfAux, formatV, String.data_append]
  · apply String.ext
    simp [Signal.String, Sprintf, sprintfAux, formatV]
  · intro s1 s2 h
    unfold Signal.String
    rw [h]

end Fx
